import Mathlib

/-!
Shallow embedding of `src/main.py` (a Flet-based P2P chat demo).

Bytes are modelled as natural numbers (the program only ever XORs byte
values, and `Nat.xor` agrees with Python's `^` on values below 256).
Wall-clock instants (`time.time()`) are modelled as natural numbers; the
claims under study only compare instants and add integral TTLs to them.
Python byte strings and lists are modelled as Lean lists; `None` becomes
`Option.none`.  Python truthiness tests (`if not self.peer_key`,
`if ttl`, `not m.get("expiry")`) are modelled exactly: `None` and an
empty sequence and the number zero are falsy.
-/

/-- Model of the `CryptoManager` class: a local 32-byte key and an
optional peer key (`self.peer_key`, initialised to `None`). -/
structure CryptoManager where
  key : List Nat
  peer_key : Option (List Nat)
  deriving Repr, DecidableEq

/-- Python truthiness of `self.peer_key`: `None` and the empty byte
string `b""` are falsy, every non-empty byte string is truthy. -/
def peerKeyFalsy : Option (List Nat) → Bool
  | none => true
  | some k => k.isEmpty

/-- Model of `CryptoManager.set_peer_key`: stores the peer key verbatim. -/
def CryptoManager.set_peer_key (c : CryptoManager) (k : List Nat) : CryptoManager :=
  { c with peer_key := some k }

/-- Model of `CryptoManager.encrypt`:
`if not self.peer_key: return plaintext`;
`key = self.peer_key * (len(plaintext) // len(self.peer_key) + 1)`;
`return bytes([p ^ k for p, k in zip(plaintext, key[:len(plaintext)])])`. -/
def CryptoManager.encrypt (c : CryptoManager) (plaintext : List Nat) : List Nat :=
  if peerKeyFalsy c.peer_key then plaintext
  else
    let pk := c.peer_key.getD []
    let key := List.flatten (List.replicate (plaintext.length / pk.length + 1) pk)
    (plaintext.zip (key.take plaintext.length)).map (fun pq => Nat.xor pq.1 pq.2)

/-- Model of `CryptoManager.decrypt`: `return self.encrypt(ciphertext)`. -/
def CryptoManager.decrypt (c : CryptoManager) (ciphertext : List Nat) : List Nat :=
  c.encrypt ciphertext

/-- Model of one entry of `MessageStore.messages`: the dict built by
`MessageStore.add` with keys `sender`, `message`, `expiry`, `time`. -/
structure ChatMessage where
  sender : String
  message : String
  expiry : Option Nat
  time : String
  deriving Repr, DecidableEq

/-- Model of the `MessageStore` class: `self.messages = []`. -/
structure MessageStore where
  messages : List ChatMessage
  deriving Repr, DecidableEq

/-- Model of `MessageStore.add`: `expiry = time.time() + ttl if ttl else
None`, then append the dict.  `now` is the value of `time.time()` and
`timeLabel` the formatted `time.strftime` string. -/
def MessageStore.add (s : MessageStore) (now : Nat) (sender message : String)
    (ttl : Option Nat) (timeLabel : String) : MessageStore :=
  let expiry : Option Nat :=
    match ttl with
    | none => none
    | some t => if t = 0 then none else some (now + t)
  { messages := s.messages ++ [⟨sender, message, expiry, timeLabel⟩] }

/-- Model of `MessageStore.delete_all`: `self.messages.clear()`. -/
def MessageStore.delete_all (_ : MessageStore) : MessageStore :=
  { messages := [] }

/-- Python truthiness of the per-message keep test in
`cleanup_expired`: `not m.get("expiry") or m["expiry"] > now`. -/
def keepMsg (now : Nat) (m : ChatMessage) : Bool :=
  match m.expiry with
  | none => true
  | some e => e == 0 || decide (e > now)

/-- Model of `MessageStore.cleanup_expired`: rebuilds `self.messages`
keeping only the entries passing `keepMsg`. -/
def MessageStore.cleanup_expired (s : MessageStore) (now : Nat) : MessageStore :=
  { messages := s.messages.filter (keepMsg now) }

/-- Model of `MessageStore.get_all`: runs `cleanup_expired` then returns
the message list, together with the mutated store. -/
def MessageStore.get_all (s : MessageStore) (now : Nat) :
    List ChatMessage × MessageStore :=
  let s' := s.cleanup_expired now
  (s'.messages, s')

/-- A sequence of `get_all` reads at the given wall-clock instants,
threading the store's mutated state from read to read; returns the list
returned by each read. -/
def readSeq : MessageStore → List Nat → List (List ChatMessage)
  | _, [] => []
  | s, t :: ts =>
    let r := s.get_all t
    r.1 :: readSeq r.2 ts

/-- True on the six ASCII whitespace characters that Python's
`bytes.fromhex` ignores between byte pairs. -/
def isAsciiWs (c : Char) : Bool :=
  c == ' ' || c == '\t' || c == '\n' || c == '\x0b' || c == '\x0c' || c == '\r'

/-- Value of a hexadecimal digit character, in either case; `none` for
every other character. -/
def hexVal (c : Char) : Option Nat :=
  if '0' ≤ c && c ≤ '9' then some (c.toNat - 48)
  else if 'a' ≤ c && c ≤ 'f' then some (c.toNat - 87)
  else if 'A' ≤ c && c ≤ 'F' then some (c.toNat - 55)
  else none

/-- Model of Python's `bytes.fromhex` over a character list: ASCII
whitespace may separate byte pairs; each byte is two immediately
adjacent hex digits; any other shape raises `ValueError`, modelled as
`none`. -/
def fromhexAux : List Char → Option (List Nat)
  | [] => some []
  | c :: cs =>
    if isAsciiWs c then fromhexAux cs
    else
      match hexVal c, cs with
      | some d1, c2 :: cs' =>
        match hexVal c2 with
        | some d2 => (fromhexAux cs').map (fun r => (16 * d1 + d2) :: r)
        | none => none
      | _, _ => none

/-- Model of `bytes.fromhex(s)` on a Lean string. -/
def bytesFromHex (s : String) : Option (List Nat) :=
  fromhexAux s.data

/-- Model of Python's `str.ljust(width, fill)`: pad on the right with
`fill` up to `width` characters; a string already at least `width`
characters long is returned unchanged. -/
def ljust (s : String) (width : Nat) (fill : Char) : String :=
  if width ≤ s.length then s
  else s ++ String.mk (List.replicate (width - s.length) fill)

/-- Model of the mutable fields of `P2PChatApp` that the connect and
message logic touches (the pure widget state is presentation glue and
carries no logic). -/
structure AppState where
  crypto : CryptoManager
  store : MessageStore
  is_connected : Bool
  peer_id : Option String
  deriving Repr, DecidableEq

/-- Text of the system message appended on a successful connect:
`f"Connected to peer {peer_id[:8]}..."`. -/
def connectedText (pid : String) : String :=
  "Connected to peer " ++ (pid.take 8) ++ "..."

/-- Text of the system message appended when `bytes.fromhex` raises:
`f"Connection failed: {ex}"`.  The exception rendering `ex` depends on
the Python runtime; it is modelled by the fixed `ValueError` prose. -/
def connectionFailedText (_pid : String) : String :=
  "Connection failed: non-hexadecimal number found in fromhex() arg"

/-- Model of `P2PChatApp.connect_to_peer`.  The `try` body decodes
`peer_id.ljust(64, '0')`, stores the peer key, records the peer id,
sets `is_connected`, appends a system notice (no TTL) and refreshes
the chat, which reads the store through `get_all` and therefore runs
`cleanup_expired`.  If the decode raises, the `except` arm only appends
a failure notice and refreshes.  `now` is the wall clock during the
call and `timeLabel` the formatted time string; the function is total:
no exception escapes to the caller. -/
def connect_to_peer (app : AppState) (now : Nat) (timeLabel : String)
    (pid : String) : AppState :=
  match bytesFromHex (ljust pid 64 '0') with
  | some peer_key =>
    let store := (app.store.add now "System" (connectedText pid) none timeLabel)
    { crypto := app.crypto.set_peer_key peer_key
      store := store.cleanup_expired now
      is_connected := true
      peer_id := some pid }
  | none =>
    let store := (app.store.add now "System" (connectionFailedText pid) none timeLabel)
    { app with store := store.cleanup_expired now }

/-- The store operations reachable from the UI layer, each stamped with
the wall clock at which it runs. -/
inductive StoreOp
  | add (now : Nat) (sender message : String) (ttl : Option Nat) (timeLabel : String)
  | deleteAll
  | getAll (now : Nat)
  deriving Repr, DecidableEq

/-- Runs one store operation. -/
def execOp (s : MessageStore) : StoreOp → MessageStore
  | .add now sender message ttl timeLabel => s.add now sender message ttl timeLabel
  | .deleteAll => s.delete_all
  | .getAll now => (s.get_all now).2

/-- Runs a sequence of store operations from left to right. -/
def execOps (s : MessageStore) (ops : List StoreOp) : MessageStore :=
  ops.foldl execOp s

/-- The messages appended by the `add` operations of a run, in
chronological order. -/
def addsOf : List StoreOp → List ChatMessage
  | [] => []
  | .add now sender message ttl timeLabel :: ops =>
    (MessageStore.add ⟨[]⟩ now sender message ttl timeLabel).messages ++ addsOf ops
  | _ :: ops => addsOf ops

/-- Byte-wise XOR of two sequences, truncated to the shorter one; the
body of the comprehension in `CryptoManager.encrypt`. -/
def xorZip (P ks : List Nat) : List Nat :=
  (P.zip ks).map (fun pq => Nat.xor pq.1 pq.2)

/-- The key stream built by `CryptoManager.encrypt` before truncation:
`self.peer_key * (n // len(self.peer_key) + 1)`. -/
def tiled (K : List Nat) (n : Nat) : List Nat :=
  List.flatten (List.replicate (n / K.length + 1) K)

/-- A freshly constructed application state, as `P2PChatApp.__init__`
leaves it: empty store, not connected, no peer id, no peer key.  The
local random key is irrelevant to every claim and fixed to zeros. -/
def app0 : AppState :=
  { crypto := { key := List.replicate 32 0, peer_key := none }
    store := ⟨[]⟩
    is_connected := false
    peer_id := none }

/-- A 66-character all-lowercase hexadecimal peer identifier. -/
def pid66 : String :=
  String.mk (List.replicate 66 'a')

/-- Hex decode of `"a1b2c3d4e5f60718"` right-padded with `'0'` to 64
characters. -/
def hexKey16 : List Nat :=
  [161, 178, 195, 212, 229, 246, 7, 24] ++ List.replicate 24 0

theorem xorZip_nil (ks : List Nat) : xorZip [] ks = [] := rfl

theorem xorZip_cons (p k : Nat) (P ks : List Nat) :
    xorZip (p :: P) (k :: ks) = Nat.xor p k :: xorZip P ks := rfl

theorem xorZip_length (P ks : List Nat) :
    (xorZip P ks).length = min P.length ks.length := by
  simp [xorZip]

theorem xorZip_invol (P : List Nat) :
    ∀ ks : List Nat, P.length ≤ ks.length → xorZip (xorZip P ks) ks = P := by
  induction P with
  | nil => intro ks _; rfl
  | cons p P ih =>
    intro ks h
    cases ks with
    | nil => simp at h
    | cons k ks =>
      have hx : Nat.xor (Nat.xor p k) k = p := Nat.xor_cancel_right k p
      rw [xorZip_cons, xorZip_cons, hx, ih ks (by simpa using h)]

theorem zip_take_length (P : List Nat) :
    ∀ ks : List Nat, P.zip (ks.take P.length) = P.zip ks := by
  induction P with
  | nil => intro ks; rfl
  | cons p P ih =>
    intro ks
    cases ks with
    | nil => rfl
    | cons k ks => simp [List.take_succ_cons, ih]

theorem tiled_length (K : List Nat) (n : Nat) :
    (tiled K n).length = (n / K.length + 1) * K.length := by
  simp [tiled, List.length_flatten, List.map_replicate, List.sum_replicate,
    smul_eq_mul]

theorem le_tiled_length (K : List Nat) (n : Nat) (h : K ≠ []) :
    n ≤ (tiled K n).length := by
  have hK : 0 < K.length := List.length_pos.mpr h
  have h1 := Nat.div_add_mod n K.length
  have h2 := Nat.mod_lt n hK
  have h3 : n < K.length * (n / K.length) + K.length := by omega
  have h4 : K.length * (n / K.length) + K.length = (n / K.length + 1) * K.length := by
    ring
  rw [tiled_length]
  omega

theorem encrypt_eq_xorZip (c : CryptoManager) (K P : List Nat)
    (hK : c.peer_key = some K) (hne : K ≠ []) :
    c.encrypt P = xorZip P (tiled K P.length) := by
  have hfalse : peerKeyFalsy c.peer_key = false := by
    rw [hK]
    simpa [peerKeyFalsy, List.isEmpty_iff] using hne
  rw [CryptoManager.encrypt, hfalse]
  simp only [hK, Option.getD_some, Bool.false_eq_true, if_false]
  rw [show ((List.flatten (List.replicate (P.length / K.length + 1) K)))
      = tiled K P.length from rfl]
  rw [show List.take P.length (tiled K P.length)
      = (tiled K P.length).take P.length from rfl]
  rw [zip_take_length P (tiled K P.length)]
  rfl

theorem encrypt_length (c : CryptoManager) (K P : List Nat)
    (hK : c.peer_key = some K) (hne : K ≠ []) :
    (c.encrypt P).length = P.length := by
  rw [encrypt_eq_xorZip c K P hK hne, xorZip_length]
  exact Nat.min_eq_left (le_tiled_length K P.length hne)

theorem getElem?_tiled (K : List Nat) :
    ∀ (n i : Nat), i < n * K.length →
      (List.flatten (List.replicate n K))[i]? = K[i % K.length]? := by
  intro n
  induction n with
  | zero => intro i hi; simp at hi
  | succ n ih =>
    intro i hi
    rw [List.replicate_succ, List.flatten_cons]
    rcases Nat.lt_or_ge i K.length with hlt | hge
    · rw [List.getElem?_append_left hlt, Nat.mod_eq_of_lt hlt]
    · rw [List.getElem?_append_right hge]
      have hi' : i - K.length < n * K.length := by
        have hs : (n + 1) * K.length = n * K.length + K.length := by ring
        omega
      rw [ih (i - K.length) hi', ← Nat.mod_eq_sub_mod hge]

/-- C3: with a non-empty peer key K set, `decrypt` is the identical
operation to `encrypt`, and `decrypt (encrypt P)` returns the plaintext
P exactly, for every plaintext byte sequence. -/
theorem decrypt_encrypt_roundtrip (c : CryptoManager) (K P : List Nat)
    (hK : c.peer_key = some K) (hne : K ≠ []) :
    c.decrypt (c.encrypt P) = P ∧ c.decrypt P = c.encrypt P := by
  refine ⟨?_, rfl⟩
  rw [CryptoManager.decrypt, encrypt_eq_xorZip c K P hK hne]
  have hct : (xorZip P (tiled K P.length)).length = P.length := by
    rw [xorZip_length]
    exact Nat.min_eq_left (le_tiled_length K P.length hne)
  rw [encrypt_eq_xorZip c K _ hK hne, hct]
  exact xorZip_invol P _ (le_tiled_length K P.length hne)

theorem decrypt_encrypt_roundtrip_witness :
    CryptoManager.decrypt ⟨List.replicate 32 0, some [1, 2, 3]⟩
        (CryptoManager.encrypt ⟨List.replicate 32 0, some [1, 2, 3]⟩
          [5, 100, 255, 7])
      = [5, 100, 255, 7] :=
  (decrypt_encrypt_roundtrip ⟨List.replicate 32 0, some [1, 2, 3]⟩
    [1, 2, 3] [5, 100, 255, 7] rfl (by decide)).1

/-- C4: with a non-empty peer key K set, the ciphertext has the same
length as the plaintext and its byte at every index i is the plaintext
byte XORed with the key byte at index i modulo the key length, i.e. the
key is tiled to the plaintext length and combined byte-wise. -/
theorem encrypt_tiles_xor (c : CryptoManager) (K P : List Nat)
    (hK : c.peer_key = some K) (hne : K ≠ []) :
    (c.encrypt P).length = P.length ∧
    ∀ i, i < P.length →
      (c.encrypt P).getD i 0 = Nat.xor (P.getD i 0) (K.getD (i % K.length) 0) := by
  have hKpos : 0 < K.length := List.length_pos.mpr hne
  refine ⟨encrypt_length c K P hK hne, fun i hi => ?_⟩
  have hmod : i % K.length < K.length := Nat.mod_lt i hKpos
  have hks : i < (tiled K P.length).length :=
    Nat.lt_of_lt_of_le hi (le_tiled_length K P.length hne)
  have hxz : i < (xorZip P (tiled K P.length)).length := by
    rw [xorZip_length]
    exact lt_min hi hks
  have hkey : (tiled K P.length)[i]? = K[i % K.length]? := by
    have hb : i < (P.length / K.length + 1) * K.length := by
      have := tiled_length K P.length
      omega
    exact getElem?_tiled K (P.length / K.length + 1) i hb
  rw [List.getElem?_eq_getElem hks, List.getElem?_eq_getElem hmod] at hkey
  rw [encrypt_eq_xorZip c K P hK hne,
    List.getD_eq_getElem _ _ hxz, List.getD_eq_getElem _ _ hi,
    List.getD_eq_getElem _ _ hmod]
  simp only [xorZip, List.getElem_map, List.getElem_zip]
  congr 1
  exact Option.some.inj hkey

theorem encrypt_tiles_xor_witness :
    (CryptoManager.encrypt ⟨List.replicate 32 0, some [1, 2, 3]⟩
        [5, 100, 255, 7]).length = [5, 100, 255, 7].length ∧
    (CryptoManager.encrypt ⟨List.replicate 32 0, some [1, 2, 3]⟩
        [5, 100, 255, 7]).getD 3 0
      = Nat.xor ([5, 100, 255, 7].getD 3 0) ([1, 2, 3].getD (3 % 3) 0) := by
  have h := encrypt_tiles_xor ⟨List.replicate 32 0, some [1, 2, 3]⟩
    [1, 2, 3] [5, 100, 255, 7] rfl (by decide)
  exact ⟨h.1, h.2 3 (by decide)⟩

/-- C5: when no peer key has been set (`self.peer_key` is still `None`)
both `encrypt` and `decrypt` return their input unchanged, as a silent
pass-through rather than an error. -/
theorem passthrough_no_peer_key (c : CryptoManager) (P C : List Nat)
    (h : c.peer_key = none) : c.encrypt P = P ∧ c.decrypt C = C := by
  constructor <;>
    simp [CryptoManager.encrypt, CryptoManager.decrypt, peerKeyFalsy, h]

theorem passthrough_no_peer_key_witness :
    CryptoManager.encrypt ⟨List.replicate 32 0, none⟩ [1, 2, 3] = [1, 2, 3] ∧
    CryptoManager.decrypt ⟨List.replicate 32 0, none⟩ [9, 8] = [9, 8] :=
  passthrough_no_peer_key ⟨List.replicate 32 0, none⟩ [1, 2, 3] [9, 8] rfl

/-- C10: setting an empty peer key leaves `encrypt` and `decrypt`
behaving exactly as with no peer key set: both return their input
unchanged for every byte sequence, because the Python truthiness guard
`if not self.peer_key` also fires on `b""`, so the key-tiling division
by the key length is never reached. -/
theorem empty_peer_key_passthrough (c : CryptoManager) (P C : List Nat) :
    ((c.set_peer_key []).encrypt P = P) ∧
    ((c.set_peer_key []).decrypt C = C) ∧
    ((c.set_peer_key []).encrypt P = CryptoManager.encrypt ⟨c.key, none⟩ P) := by
  refine ⟨?_, ?_, ?_⟩ <;>
    simp [CryptoManager.set_peer_key, CryptoManager.encrypt,
      CryptoManager.decrypt, peerKeyFalsy]

theorem get_all_fst (s : MessageStore) (now : Nat) :
    (s.get_all now).1 = s.messages.filter (keepMsg now) := rfl

theorem readSeq_cons (s : MessageStore) (t : Nat) (ts : List Nat) :
    readSeq s (t :: ts)
      = s.messages.filter (keepMsg t)
        :: readSeq ⟨s.messages.filter (keepMsg t)⟩ ts := rfl

theorem readSeq_getD_mem (m : ChatMessage) :
    ∀ (ts : List Nat) (s : MessageStore) (k : Nat), k < ts.length →
      (m ∈ (readSeq s ts).getD k [] ↔
        m ∈ s.messages ∧ ∀ j, j ≤ k → keepMsg (ts.getD j 0) m = true) := by
  intro ts
  induction ts with
  | nil => intro s k hk; simp at hk
  | cons t ts ih =>
    intro s k hk
    cases k with
    | zero =>
      rw [readSeq_cons, List.getD_cons_zero, List.mem_filter]
      constructor
      · rintro ⟨h1, h2⟩
        refine ⟨h1, fun j hj => ?_⟩
        cases Nat.le_zero.mp hj
        simpa using h2
      · rintro ⟨h1, h2⟩
        exact ⟨h1, by simpa using h2 0 (Nat.le_refl 0)⟩
    | succ k =>
      have hk' : k < ts.length := by simpa using hk
      rw [readSeq_cons, List.getD_cons_succ, ih ⟨_⟩ k hk', List.mem_filter]
      constructor
      · rintro ⟨⟨h1, h2⟩, h3⟩
        refine ⟨h1, fun j hj => ?_⟩
        cases j with
        | zero => simpa using h2
        | succ j => simpa using h3 j (Nat.succ_le_succ_iff.mp hj)
      · rintro ⟨h1, h2⟩
        refine ⟨⟨h1, by simpa using h2 0 (Nat.zero_le _)⟩, fun j hj => ?_⟩
        simpa using h2 (j + 1) (Nat.succ_le_succ hj)

/-- C1: a message added at wall-clock time `t0` with a positive TTL `t`
gets the absolute expiry `t0 + t`; along any sequence of `get_all`
reads at nondecreasing wall-clock instants, the message appears in the
k-th read if and only if that read's clock value is strictly below
`t0 + t` (equivalently: it is visible exactly while its expiry is
strictly in the future at observation time). -/
theorem ttl_expiry_iff (s : MessageStore) (t0 t : Nat)
    (sender msg lbl : String) (times : List Nat) (k : Nat)
    (ht : 0 < t) (hmono : times.Pairwise (· ≤ ·)) (hk : k < times.length) :
    (s.add t0 sender msg (some t) lbl).messages
        = s.messages ++ [⟨sender, msg, some (t0 + t), lbl⟩] ∧
    ((⟨sender, msg, some (t0 + t), lbl⟩ : ChatMessage)
        ∈ (readSeq (s.add t0 sender msg (some t) lbl) times).getD k []
      ↔ times.getD k 0 < t0 + t) := by
  have ht' : t ≠ 0 := Nat.pos_iff_ne_zero.mp ht
  have hadd : (s.add t0 sender msg (some t) lbl).messages
      = s.messages ++ [⟨sender, msg, some (t0 + t), lbl⟩] := by
    simp [MessageStore.add, ht']
  refine ⟨hadd, ?_⟩
  have hkeep : ∀ now : Nat,
      keepMsg now ⟨sender, msg, some (t0 + t), lbl⟩ = decide (now < t0 + t) := by
    intro now
    have he : (t0 + t == 0) = false := by
      simp only [beq_eq_false_iff_ne]
      omega
    simp [keepMsg, he]
  rw [readSeq_getD_mem _ times _ k hk]
  have hmem : (⟨sender, msg, some (t0 + t), lbl⟩ : ChatMessage)
      ∈ (s.add t0 sender msg (some t) lbl).messages := by
    rw [hadd]
    simp
  constructor
  · rintro ⟨_, hall⟩
    have := hall k (Nat.le_refl k)
    rw [hkeep] at this
    exact of_decide_eq_true this
  · intro hlt
    refine ⟨hmem, fun j hj => ?_⟩
    rw [hkeep]
    have hjlen : j < times.length := Nat.lt_of_le_of_lt hj hk
    have hle : times.getD j 0 ≤ times.getD k 0 := by
      rcases Nat.lt_or_ge j k with hjk | hjk
      · rw [List.getD_eq_getElem _ _ hjlen, List.getD_eq_getElem _ _ hk]
        exact List.pairwise_iff_getElem.mp hmono j k hjlen hk hjk
      · have : j = k := Nat.le_antisymm hj hjk
        subst this
        exact Nat.le_refl _
    exact decide_eq_true (Nat.lt_of_le_of_lt hle hlt)

theorem ttl_expiry_iff_witness :
    ((MessageStore.add ⟨[]⟩ 10 "You" "hi" (some 5) "00:00").messages
        = ([] : List ChatMessage) ++ [⟨"You", "hi", some (10 + 5), "00:00"⟩]) ∧
    ((⟨"You", "hi", some (10 + 5), "00:00"⟩ : ChatMessage)
        ∈ (readSeq (MessageStore.add ⟨[]⟩ 10 "You" "hi" (some 5) "00:00")
            [12, 14, 20]).getD 1 []
      ↔ [12, 14, 20].getD 1 0 < 10 + 5) :=
  ttl_expiry_iff ⟨[]⟩ 10 5 "You" "hi" "00:00" [12, 14, 20] 1
    (by decide) (by decide) (by decide)

/-- C2: a message added with no TTL or with TTL zero gets no expiry at
all, and stays in the output of every subsequent `get_all` read, at
arbitrary read times and across arbitrarily many reads. -/
theorem zero_ttl_persists (s : MessageStore) (t0 : Nat)
    (sender msg lbl : String) (ttl : Option Nat) (times : List Nat) (k : Nat)
    (httl : ttl = none ∨ ttl = some 0) (hk : k < times.length) :
    (s.add t0 sender msg ttl lbl).messages
        = s.messages ++ [⟨sender, msg, none, lbl⟩] ∧
    (⟨sender, msg, none, lbl⟩ : ChatMessage)
      ∈ (readSeq (s.add t0 sender msg ttl lbl) times).getD k [] := by
  have hadd : (s.add t0 sender msg ttl lbl).messages
      = s.messages ++ [⟨sender, msg, none, lbl⟩] := by
    rcases httl with h | h <;> simp [MessageStore.add, h]
  refine ⟨hadd, ?_⟩
  rw [readSeq_getD_mem _ times _ k hk]
  refine ⟨by rw [hadd]; simp, fun j _ => rfl⟩

theorem zero_ttl_persists_witness :
    ((MessageStore.add ⟨[]⟩ 10 "You" "keep" (some 0) "00:00").messages
        = ([] : List ChatMessage) ++ [⟨"You", "keep", none, "00:00"⟩]) ∧
    (⟨"You", "keep", none, "00:00"⟩ : ChatMessage)
      ∈ (readSeq (MessageStore.add ⟨[]⟩ 10 "You" "keep" (some 0) "00:00")
          [1000000, 5, 99]).getD 2 [] :=
  zero_ttl_persists ⟨[]⟩ 10 "You" "keep" "00:00" (some 0) [1000000, 5, 99] 2
    (Or.inr rfl) (by decide)

/-- C8: after `delete_all` the store's sequence is empty, and a
`get_all` performed before any further add returns the empty sequence
at every read time. -/
theorem delete_all_clears (s : MessageStore) (now : Nat) :
    (s.delete_all).messages = [] ∧ ((s.delete_all).get_all now).1 = [] :=
  ⟨rfl, rfl⟩

theorem execOps_sublist (ops : List StoreOp) :
    ∀ s : MessageStore,
      (execOps s ops).messages.Sublist (s.messages ++ addsOf ops) := by
  induction ops with
  | nil =>
    intro s
    simp [execOps, addsOf]
  | cons op ops ih =>
    intro s
    have step : execOps s (op :: ops) = execOps (execOp s op) ops := rfl
    rw [step]
    refine (ih (execOp s op)).trans ?_
    cases op with
    | add now sender message ttl timeLabel =>
      have h1 : (execOp s (.add now sender message ttl timeLabel)).messages
          = s.messages
            ++ (MessageStore.add ⟨[]⟩ now sender message ttl timeLabel).messages := by
        simp [execOp, MessageStore.add]
      rw [h1, List.append_assoc]
      exact List.Sublist.refl _
    | deleteAll =>
      have h1 : (execOp s .deleteAll).messages = [] := rfl
      rw [h1, List.nil_append]
      have h2 : addsOf (StoreOp.deleteAll :: ops) = addsOf ops := rfl
      rw [h2]
      exact List.sublist_append_right s.messages (addsOf ops)
    | getAll now =>
      have h1 : (execOp s (.getAll now)).messages
          = s.messages.filter (keepMsg now) := rfl
      rw [h1]
      have h2 : addsOf (StoreOp.getAll now :: ops) = addsOf ops := rfl
      rw [h2]
      exact (List.filter_sublist s.messages).append (List.Sublist.refl _)

/-- C9: starting from the empty store, after any sequence of add,
delete-all and read operations, the store's contents is a sublist of
the chronological list of added messages, and so is the result of any
further `get_all`: surviving messages always appear in the relative
order in which they were added and no operation reorders the store. -/
theorem insertion_order_preserved (ops : List StoreOp) (now : Nat) :
    (execOps ⟨[]⟩ ops).messages.Sublist (addsOf ops) ∧
    ((execOps ⟨[]⟩ ops).get_all now).1.Sublist (addsOf ops) := by
  have h := execOps_sublist ops ⟨[]⟩
  rw [show (MessageStore.mk []).messages = [] from rfl, List.nil_append] at h
  refine ⟨h, ?_⟩
  rw [get_all_fst]
  exact (List.filter_sublist _).trans h

theorem keepMsg_none (now : Nat) (sender body lbl : String) :
    keepMsg now ⟨sender, body, none, lbl⟩ = true := rfl

/-- C6: whenever hex-decoding the peer identifier right-padded with
`'0'` to 64 characters fails, `connect_to_peer` (a total function: the
exception is caught, nothing reaches the caller) leaves the connected
flag, the crypto state (hence the peer key) and the stored peer id
unchanged, and appends one system-authored failure message to the
store, which otherwise only undergoes the usual expiry pruning of the
refresh. -/
theorem connect_failure_state (app : AppState) (now : Nat) (lbl pid : String)
    (h : bytesFromHex (ljust pid 64 '0') = none) :
    (connect_to_peer app now lbl pid).is_connected = app.is_connected ∧
    (connect_to_peer app now lbl pid).crypto = app.crypto ∧
    (connect_to_peer app now lbl pid).peer_id = app.peer_id ∧
    (connect_to_peer app now lbl pid).store.messages
      = (app.store.cleanup_expired now).messages
        ++ [⟨"System", connectionFailedText pid, none, lbl⟩] := by
  unfold connect_to_peer
  rw [h]
  refine ⟨rfl, rfl, rfl, ?_⟩
  simp [MessageStore.add, MessageStore.cleanup_expired, List.filter_append,
    keepMsg_none]

theorem connect_failure_state_witness :
    (connect_to_peer app0 3 "10:00" "not-hex!!").is_connected
        = app0.is_connected ∧
    (connect_to_peer app0 3 "10:00" "not-hex!!").crypto = app0.crypto ∧
    (connect_to_peer app0 3 "10:00" "not-hex!!").peer_id = app0.peer_id ∧
    (connect_to_peer app0 3 "10:00" "not-hex!!").store.messages
      = (app0.store.cleanup_expired 3).messages
        ++ [⟨"System", connectionFailedText "not-hex!!", none, "10:00"⟩] :=
  connect_failure_state app0 3 "10:00" "not-hex!!" (by decide)

theorem fromhexAux_length : ∀ (cs : List Char) (k : List Nat),
    (∀ c ∈ cs, isAsciiWs c = false) → fromhexAux cs = some k →
    2 * k.length = cs.length
  | [], k, _hws, h => by
    simp only [fromhexAux, Option.some.injEq] at h
    subst h
    rfl
  | [c], k, hws, h => by
    have hc : isAsciiWs c = false := hws c (by simp)
    rw [fromhexAux.eq_def] at h
    simp only [hc, Bool.false_eq_true, if_false] at h
    rcases hd : hexVal c with _ | d1 <;> rw [hd] at h <;> dsimp only at h <;>
      simp at h
  | c :: c2 :: cs, k, hws, h => by
    have hc : isAsciiWs c = false := hws c (by simp)
    rw [fromhexAux.eq_def] at h
    simp only [hc, Bool.false_eq_true, if_false] at h
    rcases hd1 : hexVal c with _ | d1 <;> rw [hd1] at h <;> dsimp only at h
    · simp at h
    · rcases hd2 : hexVal c2 with _ | d2 <;> rw [hd2] at h <;> dsimp only at h
      · simp at h
      · rcases Option.map_eq_some'.mp h with ⟨r, hr, hk⟩
        have ihw : ∀ x ∈ cs, isAsciiWs x = false := fun x hx =>
          hws x (by simp [hx])
        have ih := fromhexAux_length cs r ihw hr
        subst hk
        simp only [List.length_cons]
        omega

theorem ljust_data (s : String) (w : Nat) (c : Char) (h : s.length ≤ w) :
    (ljust s w c).data = s.data ++ List.replicate (w - s.length) c := by
  unfold ljust
  rcases Nat.lt_or_ge s.length w with hlt | hge
  · rw [if_neg (by omega)]
    simp
  · have hw : w - s.length = 0 := by omega
    rw [if_pos hge, hw]
    simp

theorem length_data (s : String) : s.length = s.data.length := by
  cases s
  rfl

theorem bytesFromHex_ljust_32 (pid : String) (k : List Nat)
    (hlen : pid.length ≤ 64) (hws : ∀ c ∈ pid.data, isAsciiWs c = false)
    (h : bytesFromHex (ljust pid 64 '0') = some k) : k.length = 32 := by
  unfold bytesFromHex at h
  have hdata := ljust_data pid 64 '0' hlen
  have hws' : ∀ c ∈ (ljust pid 64 '0').data, isAsciiWs c = false := by
    rw [hdata]
    intro c hc
    rcases List.mem_append.mp hc with hc | hc
    · exact hws c hc
    · rw [List.eq_of_mem_replicate hc]
      rfl
  have hlen2 := fromhexAux_length (ljust pid 64 '0').data k hws' h
  rw [hdata, List.length_append, List.length_replicate] at hlen2
  have hpl := length_data pid
  omega

/-- C7 (amended): whenever hex-decoding the peer identifier
right-padded with `'0'` to 64 characters succeeds, `connect_to_peer`
stores exactly that decode as the peer key, records the peer id, sets
the connected flag, and appends only the system "Connected to peer"
notice (no failure message); when moreover the identifier is at most 64
characters long and contains no ASCII whitespace, the stored key is
exactly 32 bytes.  (The original claim asserted 32 bytes for every
succeeding identifier; identifiers longer than 64 characters are left
unpadded and decode to more than 32 bytes.) -/
theorem connect_success_state (app : AppState) (now : Nat) (lbl pid : String)
    (k : List Nat) (h : bytesFromHex (ljust pid 64 '0') = some k) :
    (connect_to_peer app now lbl pid).crypto.peer_key = some k ∧
    (connect_to_peer app now lbl pid).is_connected = true ∧
    (connect_to_peer app now lbl pid).peer_id = some pid ∧
    (connect_to_peer app now lbl pid).store.messages
      = (app.store.cleanup_expired now).messages
        ++ [⟨"System", connectedText pid, none, lbl⟩] ∧
    (pid.length ≤ 64 → (∀ c ∈ pid.data, isAsciiWs c = false) →
      k.length = 32) := by
  unfold connect_to_peer
  rw [h]
  refine ⟨rfl, rfl, rfl, ?_, fun hlen hws => bytesFromHex_ljust_32 pid k hlen hws h⟩
  simp [CryptoManager.set_peer_key, MessageStore.add, MessageStore.cleanup_expired,
    List.filter_append, keepMsg_none]

theorem connect_success_state_witness :
    (connect_to_peer app0 7 "09:00" "a1b2c3d4e5f60718").crypto.peer_key
        = some hexKey16 ∧
    (connect_to_peer app0 7 "09:00" "a1b2c3d4e5f60718").is_connected = true ∧
    (connect_to_peer app0 7 "09:00" "a1b2c3d4e5f60718").peer_id
        = some "a1b2c3d4e5f60718" ∧
    hexKey16.length = 32 := by
  have h := connect_success_state app0 7 "09:00" "a1b2c3d4e5f60718" hexKey16
    (by decide)
  exact ⟨h.1, h.2.1, h.2.2.1, h.2.2.2.2 (by decide) (by decide)⟩

/-- C7 (counterexample): the 66-character all-hex identifier `pid66` is
longer than the padding width, so `ljust` leaves it unchanged; the
connect operation succeeds on it (flag set, peer key stored), yet the
stored peer key has 33 bytes, not 32 as the claim asserts for every
succeeding identifier. -/
theorem connect_success_not_32 :
    (connect_to_peer app0 0 "00:00" pid66).is_connected = true ∧
    (connect_to_peer app0 0 "00:00" pid66).crypto.peer_key
        = some (List.replicate 33 170) ∧
    ((connect_to_peer app0 0 "00:00" pid66).crypto.peer_key.getD []).length
        ≠ 32 := by
  refine ⟨by decide, by decide, by decide⟩
